import Mathlib

/-
  Verification of the storage engine of the diary2 CLI (src/storage.rs,
  src/page.rs): weekly-sharded page store, dirty tracking, reconciliation,
  backup/rollback and the v1-to-v2 schema migration.

  Dates are modelled as day numbers (days since 1970-01-01, the epoch of
  chrono::Date<Utc>); `civilFromDays`/`daysFromCivil` are the standard
  proleptic-Gregorian conversions (the calendar chrono implements), used
  for the `%Y-%m-%d` formatting in shard filenames.  `Int./` in Lean is
  Euclidean division, which coincides with floor division for the positive
  divisors used here.
-/

set_option maxHeartbeats 4000000

/-- Year-of-era from day-of-era, for `doe` in `[0, 146097)`. -/
def yearOfEra (doe : Int) : Int :=
  (doe - doe / 1460 + doe / 36524 - doe / 146096) / 365

/-- First day-of-era of a given year-of-era. -/
def dayOfEraStart (yoe : Int) : Int := 365 * yoe + yoe / 4 - yoe / 100

/-- Civil (year, month, day) from era number and day-of-era. -/
def civilTriple (era doe : Int) : Int × Int × Int :=
  let yoe := yearOfEra doe
  let doy := doe - dayOfEraStart yoe
  let mp := (5 * doy + 2) / 153
  let d := doy - (153 * mp + 2) / 5 + 1
  let m := if mp < 10 then mp + 3 else mp - 9
  let y := yoe + era * 400
  (if m ≤ 2 then y + 1 else y, m, d)

/-- Civil date from a day number (days since 1970-01-01). -/
def civilFromDays (z : Int) : Int × Int × Int :=
  civilTriple ((z + 719468) / 146097) ((z + 719468) % 146097)

/-- Day number from a civil date. -/
def daysFromCivil (y m d : Int) : Int :=
  let y' := if m ≤ 2 then y - 1 else y
  let era := y' / 400
  let yoe := y' - era * 400
  let doy := (153 * (if m > 2 then m - 3 else m + 9) + 2) / 5 + d - 1
  let doe := yoe * 365 + yoe / 4 - yoe / 100 + doy
  era * 146097 + doe - 719468

theorem yearOfEra_spec (doe : Int) (h0 : 0 ≤ doe) (h1 : doe < 146097) :
    0 ≤ yearOfEra doe ∧ yearOfEra doe ≤ 399 ∧
    dayOfEraStart (yearOfEra doe) ≤ doe ∧
    doe - dayOfEraStart (yearOfEra doe) ≤ 365 := by
  unfold yearOfEra dayOfEraStart
  generalize hy : (doe - doe / 1460 + doe / 36524 - doe / 146096) / 365 = yoe
  have hy0 : 0 ≤ yoe := by omega
  have hy399 : yoe ≤ 399 := by omega
  refine ⟨hy0, hy399, ?_⟩
  interval_cases yoe <;> omega

theorem monthDay_spec (doy : Int) (h0 : 0 ≤ doy) (h1 : doy ≤ 365) :
    0 ≤ (5 * doy + 2) / 153 ∧ (5 * doy + 2) / 153 ≤ 11 ∧
    1 ≤ doy - (153 * ((5 * doy + 2) / 153) + 2) / 5 + 1 ∧
    doy - (153 * ((5 * doy + 2) / 153) + 2) / 5 + 1 ≤ 31 := by
  omega

theorem daysFromCivil_civilTriple (era doe : Int) (h0 : 0 ≤ doe) (h1 : doe < 146097) :
    daysFromCivil (civilTriple era doe).1 (civilTriple era doe).2.1 (civilTriple era doe).2.2 =
      146097 * era + doe - 719468 := by
  obtain ⟨hy0, hy399, hs, hdoy⟩ := yearOfEra_spec doe h0 h1
  simp only [civilTriple, daysFromCivil]
  set yoe := yearOfEra doe with hyoe
  clear_value yoe
  unfold dayOfEraStart at *
  have hq : (yoe + era * 400) / 400 = era := by omega
  split_ifs <;>
    (try simp only [Int.add_sub_cancel, Int.sub_add_cancel]) <;>
    (try rw [hq]) <;>
    (try simp only [Int.add_sub_cancel, Int.sub_add_cancel]) <;>
    omega

/-- The civil conversion is a right inverse of `daysFromCivil`. -/
theorem daysFromCivil_civilFromDays (z : Int) :
    daysFromCivil (civilFromDays z).1 (civilFromDays z).2.1 (civilFromDays z).2.2 = z := by
  have h0 : 0 ≤ (z + 719468) % 146097 := Int.emod_nonneg _ (by norm_num)
  have h1 : (z + 719468) % 146097 < 146097 := Int.emod_lt_of_pos _ (by norm_num)
  have h := daysFromCivil_civilTriple ((z + 719468) / 146097) ((z + 719468) % 146097) h0 h1
  unfold civilFromDays
  omega

/-- `civilFromDays` is injective. -/
theorem civilFromDays_injective (z1 z2 : Int) (h : civilFromDays z1 = civilFromDays z2) :
    z1 = z2 := by
  have h1 := daysFromCivil_civilFromDays z1
  have h2 := daysFromCivil_civilFromDays z2
  rw [h] at h1
  omega

/-- Month and day components are always in range. -/
theorem civilFromDays_bounds (z : Int) :
    1 ≤ (civilFromDays z).2.1 ∧ (civilFromDays z).2.1 ≤ 12 ∧
    1 ≤ (civilFromDays z).2.2 ∧ (civilFromDays z).2.2 ≤ 31 := by
  have h0 : 0 ≤ (z + 719468) % 146097 := Int.emod_nonneg _ (by norm_num)
  have h1 : (z + 719468) % 146097 < 146097 := Int.emod_lt_of_pos _ (by norm_num)
  obtain ⟨hy0, hy399, hs, hdoy⟩ := yearOfEra_spec _ h0 h1
  obtain ⟨hmp0, hmp11, hd1, hd31⟩ :=
    monthDay_spec ((z + 719468) % 146097 - dayOfEraStart (yearOfEra ((z + 719468) % 146097)))
      (by omega) hdoy
  simp only [civilFromDays, civilTriple]
  split_ifs <;> constructor <;> omega

/-- Day numbers in this interval have civil years in `[1, 9999]`; every
    date this diary can realistically store (years ≈ 50 CE to ≈ 9800 CE)
    lies well inside.  The `%Y` format used for shard filenames is a plain
    zero-padded 4-digit year exactly on this range. -/
def dateOk (z : Int) : Prop := -700000 ≤ z ∧ z ≤ 2880000

instance (z : Int) : Decidable (dateOk z) := by unfold dateOk; infer_instance

theorem civilFromDays_year_bounds (z : Int) (h : -718000 ≤ z) (h2 : z ≤ 2890000) :
    1 ≤ (civilFromDays z).1 ∧ (civilFromDays z).1 ≤ 9999 := by
  have h0 : 0 ≤ (z + 719468) % 146097 := Int.emod_nonneg _ (by norm_num)
  have h1 : (z + 719468) % 146097 < 146097 := Int.emod_lt_of_pos _ (by norm_num)
  have hdm : 146097 * ((z + 719468) / 146097) + (z + 719468) % 146097 = z + 719468 :=
    Int.ediv_add_emod _ _
  obtain ⟨hy0, hy399, hs, hdoy⟩ := yearOfEra_spec _ h0 h1
  simp only [civilFromDays, civilTriple]
  set yoe := yearOfEra ((z + 719468) % 146097) with hyoe
  clear_value yoe
  unfold dayOfEraStart at hs hdoy
  split_ifs <;> constructor <;> omega

/-- chrono `Weekday` mapped to `0 = Sunday, ..., 6 = Saturday`;
    day 0 (1970-01-01) is a Thursday (4). -/
def weekdayNum (d : Int) : Int := (d + 4) % 7

/-- Closed form for the Sunday on or before day `d`. -/
def weekBegin (d : Int) : Int := d - (d + 4) % 7

/-- The `begin` loop of `find_week` (storage.rs:54-59): step to the
    previous day until it is a Sunday.  The loop needs at most 6 steps;
    fuel 7 makes the recursion structural. -/
def findWeekBegin : Nat → Int → Option Int
  | 0, _ => none
  | fuel + 1, d => if weekdayNum d = 0 then some d else findWeekBegin fuel (d - 1)

/-- The `end` loop of `find_week` (storage.rs:61-66): step to the next
    day until it is a Saturday. -/
def findWeekEnd : Nat → Int → Option Int
  | 0, _ => none
  | fuel + 1, d => if weekdayNum d = 6 then some d else findWeekEnd fuel (d + 1)

/-- `find_week` (storage.rs:51-69): the Sunday and Saturday of `day`'s week. -/
def find_week (day : Int) : Option (Int × Int) :=
  match findWeekBegin 7 day, findWeekEnd 7 day with
  | some b, some e => some (b, e)
  | _, _ => none

theorem findWeekBegin_spec (fuel : Nat) : ∀ d : Int,
    (weekdayNum d).toNat < fuel → findWeekBegin fuel d = some (weekBegin d) := by
  induction fuel with
  | zero => intro d h; omega
  | succ n ih =>
    intro d h
    by_cases h0 : weekdayNum d = 0
    · rw [findWeekBegin, if_pos h0]
      unfold weekdayNum at h0
      unfold weekBegin
      congr 1
      omega
    · rw [findWeekBegin, if_neg h0, ih (d - 1) (by unfold weekdayNum at *; omega)]
      congr 1
      unfold weekBegin weekdayNum at *
      omega

theorem findWeekEnd_spec (fuel : Nat) : ∀ d : Int,
    (6 - weekdayNum d).toNat < fuel → findWeekEnd fuel d = some (weekBegin d + 6) := by
  induction fuel with
  | zero => intro d h; omega
  | succ n ih =>
    intro d h
    by_cases h0 : weekdayNum d = 6
    · rw [findWeekEnd, if_pos h0]
      unfold weekdayNum at h0
      unfold weekBegin
      congr 1
      omega
    · rw [findWeekEnd, if_neg h0, ih (d + 1) ?_]
      · congr 1
        unfold weekBegin weekdayNum at *
        omega
      · have h1 : 0 ≤ (d + 4) % 7 := Int.emod_nonneg _ (by norm_num)
        have h2 : (d + 4) % 7 < 7 := Int.emod_lt_of_pos _ (by norm_num)
        unfold weekdayNum at *
        omega

/-- `find_week` always succeeds and returns the enclosing Sunday-Saturday week. -/
theorem find_week_eq (d : Int) : find_week d = some (weekBegin d, weekBegin d + 6) := by
  have h1 : 0 ≤ (d + 4) % 7 := Int.emod_nonneg _ (by norm_num)
  have h2 : (d + 4) % 7 < 7 := Int.emod_lt_of_pos _ (by norm_num)
  rw [find_week, findWeekBegin_spec 7 d (by unfold weekdayNum; omega),
    findWeekEnd_spec 7 d (by unfold weekdayNum; omega)]

/-- Base-10 digits of `n`, least significant first (equal to `Nat.digits 10 n`,
    see `natDigits_eq`); structural recursion on a fuel bound so that the
    kernel can evaluate it. -/
def digitsAux10 : Nat → Nat → List Nat
  | _, 0 => []
  | 0, _ + 1 => []
  | fuel + 1, n + 1 => (n + 1) % 10 :: digitsAux10 fuel ((n + 1) / 10)

def natDigits (n : Nat) : List Nat := digitsAux10 n n

theorem digitsAux10_eq (fuel : Nat) : ∀ n : Nat, n ≤ fuel →
    digitsAux10 fuel n = Nat.digits 10 n := by
  induction fuel with
  | zero =>
    intro n h
    interval_cases n
    simp [digitsAux10]
  | succ m ih =>
    intro n h
    match n with
    | 0 => simp [digitsAux10]
    | k + 1 =>
      rw [digitsAux10, Nat.digits_def' (by norm_num : (1:Nat) < 10) (by omega : 0 < k + 1),
        ih ((k + 1) / 10) (by omega)]

theorem natDigits_eq (n : Nat) : natDigits n = Nat.digits 10 n :=
  digitsAux10_eq n n le_rfl

/-- Zero-padded base-10 rendering of `n` to (at least) `w` characters,
    the behaviour of chrono's `%Y` / `%m` / `%d` on nonnegative values. -/
def padNum (w n : Nat) : List Char :=
  List.replicate (w - (natDigits n).length) '0' ++
    ((natDigits n).reverse.map Nat.digitChar)

/-- Left inverse of `padNum`: read the characters back as base-10 digits. -/
def unpadNum (l : List Char) : Nat :=
  Nat.ofDigits 10 (l.reverse.map fun c => c.toNat - 48)

theorem digitChar_toNat (d : Nat) (h : d < 10) : (Nat.digitChar d).toNat - 48 = d := by
  interval_cases d <;> decide

theorem ofDigits_replicate_zero (k : Nat) : Nat.ofDigits 10 (List.replicate k 0) = 0 := by
  induction k with
  | zero => rfl
  | succ n ih => simp [List.replicate_succ, Nat.ofDigits_cons, ih]

theorem unpadNum_padNum (w n : Nat) : unpadNum (padNum w n) = n := by
  unfold unpadNum padNum
  rw [natDigits_eq]
  rw [List.reverse_append, List.map_reverse, List.reverse_reverse, List.reverse_replicate]
  rw [List.map_append, List.map_map]
  have hmap : (Nat.digits 10 n).map ((fun c => c.toNat - 48) ∘ Nat.digitChar) =
      Nat.digits 10 n := by
    have h1 : (Nat.digits 10 n).map ((fun c => c.toNat - 48) ∘ Nat.digitChar) =
        (Nat.digits 10 n).map id :=
      List.map_congr_left fun d hd => digitChar_toNat d (Nat.digits_lt_base (by norm_num) hd)
    rw [h1, List.map_id]
  have hrep : (List.replicate (w - (Nat.digits 10 n).length) '0').map
      (fun c => c.toNat - 48) = List.replicate (w - (Nat.digits 10 n).length) 0 := by
    rw [List.map_replicate]
    rfl
  rw [hmap, hrep, Nat.ofDigits_append, Nat.ofDigits_digits, ofDigits_replicate_zero]
  ring

theorem padNum_injective (w n1 n2 : Nat) (h : padNum w n1 = padNum w n2) : n1 = n2 := by
  have h1 := unpadNum_padNum w n1
  have h2 := unpadNum_padNum w n2
  rw [h] at h1
  omega

theorem padNum_length (w n : Nat) (h : n < 10 ^ w) : (padNum w n).length = w := by
  have hlen : (Nat.digits 10 n).length ≤ w := by
    by_cases hn : n = 0
    · simp [hn]
    · rw [Nat.digits_len 10 n (by norm_num) hn]
      have := (Nat.lt_pow_iff_log_lt (by norm_num : 1 < 10) hn).mp h
      omega
  unfold padNum
  rw [natDigits_eq, List.length_append, List.length_replicate, List.length_map,
    List.length_reverse]
  omega

/-- The `%Y-%m-%d` formatting of a day number used in shard filenames
    (faithful for the year range `[0, 9999]`, see `dateOk`). -/
def fmtDate (z : Int) : String :=
  String.mk (padNum 4 (civilFromDays z).1.toNat ++
    ('-' :: (padNum 2 (civilFromDays z).2.1.toNat ++
      ('-' :: padNum 2 (civilFromDays z).2.2.toNat))))

/-- `PAGE_DIR` (storage.rs:43). -/
def PAGE_DIR : String := "pages"

/-- The shard filename `"weekBegin-weekEnd.json"` computed by
    `generate_page_filepath` (storage.rs:71-80) for any date of the week. -/
def page_filename (date : Int) : String :=
  match find_week date with
  | some (b, e) => fmtDate b ++ "-" ++ fmtDate e ++ ".json"
  | none => ""

/-- `generate_page_filepath` (storage.rs:71-80); paths are lists of components:
    `directory/pages/filename`. -/
def generate_page_filepath (directory : List String) (date : Int) : List String :=
  directory ++ [PAGE_DIR, page_filename date]

theorem page_filename_eq (z : Int) :
    page_filename z = fmtDate (weekBegin z) ++ "-" ++ fmtDate (weekBegin z + 6) ++ ".json" := by
  rw [page_filename, find_week_eq]

example : fmtDate 19785 = "2024-03-03" := by decide

example : page_filename 19788 = "2024-03-03-2024-03-09.json" := by decide

theorem fmtDate_data_length (z : Int) (h : (civilFromDays z).1 ≤ 9999) :
    (fmtDate z).data.length = 10 := by
  obtain ⟨hm1, hm12, hd1, hd31⟩ := civilFromDays_bounds z
  unfold fmtDate
  simp only [List.length_append, List.length_cons]
  rw [padNum_length 4 _ (by omega), padNum_length 2 _ (by omega), padNum_length 2 _ (by omega)]

theorem fmtDate_injective (z1 z2 : Int)
    (ha1 : -718000 ≤ z1) (ha2 : z1 ≤ 2890000)
    (hb1 : -718000 ≤ z2) (hb2 : z2 ≤ 2890000)
    (h : fmtDate z1 = fmtDate z2) : z1 = z2 := by
  obtain ⟨hy1a, hy1b⟩ := civilFromDays_year_bounds z1 ha1 ha2
  obtain ⟨hy2a, hy2b⟩ := civilFromDays_year_bounds z2 hb1 hb2
  obtain ⟨hm1, hm12, hd1, hd31⟩ := civilFromDays_bounds z1
  obtain ⟨hm1', hm12', hd1', hd31'⟩ := civilFromDays_bounds z2
  have hdata := congrArg String.data h
  simp only [fmtDate] at hdata
  obtain ⟨hy, htail⟩ := List.append_inj hdata
    (by rw [padNum_length 4 _ (by omega), padNum_length 4 _ (by omega)])
  injection htail with _ htail2
  obtain ⟨hm, htail3⟩ := List.append_inj htail2
    (by rw [padNum_length 2 _ (by omega), padNum_length 2 _ (by omega)])
  injection htail3 with _ hd
  have hyn := padNum_injective 4 _ _ hy
  have hmn := padNum_injective 2 _ _ hm
  have hdn := padNum_injective 2 _ _ hd
  apply civilFromDays_injective
  have e1 : (civilFromDays z1).1 = (civilFromDays z2).1 := by omega
  have e2 : (civilFromDays z1).2.1 = (civilFromDays z2).2.1 := by omega
  have e3 : (civilFromDays z1).2.2 = (civilFromDays z2).2.2 := by omega
  calc civilFromDays z1 = ((civilFromDays z1).1, (civilFromDays z1).2.1,
        (civilFromDays z1).2.2) := rfl
    _ = ((civilFromDays z2).1, (civilFromDays z2).2.1, (civilFromDays z2).2.2) := by
        rw [e1, e2, e3]
    _ = civilFromDays z2 := rfl

/-- Two dates yield the same shard filename iff they are in the same
    Sunday-Saturday week (within the supported year range). -/
theorem page_filename_inj (z1 z2 : Int) (h1 : dateOk z1) (h2 : dateOk z2)
    (h : page_filename z1 = page_filename z2) : weekBegin z1 = weekBegin z2 := by
  obtain ⟨h1a, h1b⟩ := h1
  obtain ⟨h2a, h2b⟩ := h2
  have hw1a : z1 - 6 ≤ weekBegin z1 ∧ weekBegin z1 ≤ z1 := by unfold weekBegin; omega
  have hw2a : z2 - 6 ≤ weekBegin z2 ∧ weekBegin z2 ≤ z2 := by unfold weekBegin; omega
  rw [page_filename_eq, page_filename_eq] at h
  have hdata := congrArg String.data h
  simp only [String.data_append] at hdata
  rw [List.append_assoc, List.append_assoc, List.append_assoc, List.append_assoc] at hdata
  obtain ⟨hb, _⟩ := List.append_inj hdata
    (by
      rw [fmtDate_data_length _ ?_, fmtDate_data_length _ ?_]
      · exact (civilFromDays_year_bounds (weekBegin z2) (by omega) (by omega)).2
      · exact (civilFromDays_year_bounds (weekBegin z1) (by omega) (by omega)).2)
  exact fmtDate_injective _ _ (by omega) (by omega) (by omega) (by omega) (String.ext hb)

/-- chrono `DateTime<Utc>`: a day number (the `.date()` component) plus a
    time-of-day payload; ordering is lexicographic as for instants. -/
structure DT where
  day : Int
  tod : Int
deriving DecidableEq

/-- `DateTime` order (`start > end` test in storage.rs:221). -/
def DT.lt (a b : DT) : Prop := a.day < b.day ∨ (a.day = b.day ∧ a.tod < b.tod)

instance (a b : DT) : Decidable (DT.lt a b) := by unfold DT.lt; infer_instance

/-- `Page` (page.rs:19-26). -/
structure Page where
  id : String
  title : String
  text : String
  hidden : Bool
  created_at : DT
  updated_at : List DT
deriving DecidableEq

/-- `PageV1` (page.rs:10-16): the pre-migration page schema, without `id`. -/
structure PageV1 where
  title : String
  text : String
  hidden : Bool
  created_at : DT
  updated_at : List DT
deriving DecidableEq

/-- `WeekPage` (page.rs:35-38): one shard. -/
structure WeekPage where
  pages : List Page
  uploaded_at : Option DT
deriving DecidableEq

/-- `WeekPageV1` (page.rs:29-32). -/
structure WeekPageV1 where
  pages : List PageV1
  uploaded_at : Option DT
deriving DecidableEq

/-- `WeekPage::new` (page.rs:41-46). -/
def WeekPage.new : WeekPage := { pages := [], uploaded_at := none }

/-- `integrate` (storage.rs:251-263): clone the remote shard, then append
    every local page whose id does not occur in the remote shard.  The loop
    `for page in wpage1.pages { if find(..).is_none() { push } }` appends in
    order and tests against the original `wpage2.pages`, which is exactly a
    filter. -/
def integrate (wpage1 wpage2 : WeekPage) : WeekPage :=
  { pages := wpage2.pages ++ wpage1.pages.filter
      (fun page => (wpage2.pages.find? (fun page2 => page.id == page2.id)).isNone),
    uploaded_at := wpage2.uploaded_at }

/-- Example pages for the conflict-bias instance of §8.4 of the spec. -/
def pageLocal1 : Page :=
  { id := "1", title := "local title", text := "local text", hidden := false,
    created_at := { day := 0, tod := 0 }, updated_at := [{ day := 0, tod := 0 }] }

def pageRemote1 : Page :=
  { id := "1", title := "remote title", text := "remote text", hidden := false,
    created_at := { day := 0, tod := 0 }, updated_at := [{ day := 0, tod := 0 }] }

def pageRemote2 : Page :=
  { id := "2", title := "second", text := "second text", hidden := false,
    created_at := { day := 1, tod := 0 }, updated_at := [{ day := 1, tod := 0 }] }

/-- Claim C3: `integrate(L, R).pages` is exactly `R`'s pages unchanged followed
    by the pages of `L` whose id does not occur among the ids of `R`'s pages;
    `uploaded_at` is taken from `R`; and on local `[{id 1, local content}]`
    versus remote `[{id 1, remote content}, {id 2}]` the result has length 2
    and keeps the remote content for id 1. -/
theorem claim_c3_integrate_conflict_biased_union :
    (∀ L R : WeekPage,
      (integrate L R).pages =
        R.pages ++ L.pages.filter (fun p => decide (p.id ∉ R.pages.map Page.id)) ∧
      (integrate L R).uploaded_at = R.uploaded_at) ∧
    integrate { pages := [pageLocal1], uploaded_at := none }
        { pages := [pageRemote1, pageRemote2], uploaded_at := none } =
      { pages := [pageRemote1, pageRemote2], uploaded_at := none } := by
  constructor
  · intro L R
    refine ⟨?_, rfl⟩
    unfold integrate
    simp only []
    congr 1
    apply List.filter_congr
    intro p _
    rcases hfind : R.pages.find? (fun page2 => p.id == page2.id) with _ | q
    · have hnone := List.find?_eq_none.mp hfind
      rw [hfind]
      simp only [Option.isNone_none]
      symm
      rw [decide_eq_true_eq]
      intro hmem
      obtain ⟨q, hq, hid⟩ := List.mem_map.mp hmem
      exact absurd (by rw [← hid]; simp : (p.id == q.id) = true) (hnone q hq)
    · have hsome := List.find?_some hfind
      have hqmem := List.mem_of_find?_eq_some hfind
      have hid : p.id = q.id := by simpa using hsome
      have hmem : p.id ∈ R.pages.map Page.id := List.mem_map.mpr ⟨q, hqmem, hid.symm⟩
      rw [hfind]
      simp only [Option.isNone_some]
      symm
      rw [decide_eq_false_iff_not, not_not]
      exact hmem
  · decide

/-- Claim C10: `integrate` is idempotent on equal arguments: every page of `W`
    finds its own id in `W`, so nothing is appended and `uploaded_at` is kept,
    even when `W` contains duplicate ids. -/
theorem claim_c10_integrate_idempotent (W : WeekPage) : integrate W W = W := by
  have hfilter : W.pages.filter
      (fun page => (W.pages.find? (fun page2 => page.id == page2.id)).isNone) = [] := by
    rw [List.filter_eq_nil_iff]
    intro p hp
    have : (W.pages.find? (fun page2 => p.id == page2.id)).isSome :=
      List.find?_isSome.mpr ⟨p, hp, by simp⟩
    simp only [Option.isNone]
    cases hfind : W.pages.find? (fun page2 => p.id == page2.id) with
    | none => rw [hfind] at this; simp at this
    | some q => simp
  cases W with
  | mk pages uploaded_at =>
    unfold integrate
    simp only at hfilter
    simp [hfilter]

/-- Look up a file in a directory, modelled as an association list
    filename ↦ parsed content. -/
def lookupD {α : Type} (dir : List (String × α)) (k : String) : Option α :=
  (dir.find? (fun e => e.1 == k)).map Prod.snd

/-- `fs::write`: create the file or overwrite its content. -/
def writeD {α : Type} : List (String × α) → String → α → List (String × α)
  | [], k, v => [(k, v)]
  | e :: rest, k, v => if e.1 == k then (k, v) :: rest else e :: writeD rest k v

theorem lookupD_cons {α : Type} (e : String × α) (rest : List (String × α)) (k : String) :
    lookupD (e :: rest) k = if e.1 = k then some e.2 else lookupD rest k := by
  by_cases h : e.1 = k
  · rw [if_pos h]
    unfold lookupD
    rw [show List.find? (fun x => x.1 == k) (e :: rest) = some e from
      List.find?_cons_of_pos _ (by simpa using h)]
    rfl
  · rw [if_neg h]
    unfold lookupD
    rw [show List.find? (fun x => x.1 == k) (e :: rest) =
        List.find? (fun x => x.1 == k) rest from
      List.find?_cons_of_neg _ (by simpa using h)]

theorem lookupD_writeD_self {α : Type} (dir : List (String × α)) (k : String) (v : α) :
    lookupD (writeD dir k v) k = some v := by
  induction dir with
  | nil =>
    unfold writeD
    rw [lookupD_cons, if_pos rfl]
  | cons e rest ih =>
    by_cases he : e.1 = k
    · rw [writeD, if_pos (by simpa using he), lookupD_cons, if_pos rfl]
    · rw [writeD, if_neg (by simpa using he), lookupD_cons, if_neg he]
      exact ih

theorem lookupD_writeD_ne {α : Type} (dir : List (String × α)) (k k' : String) (v : α)
    (h : k' ≠ k) : lookupD (writeD dir k v) k' = lookupD dir k' := by
  induction dir with
  | nil =>
    unfold writeD
    rw [lookupD_cons, if_neg (Ne.symm h)]
  | cons e rest ih =>
    by_cases he : e.1 = k
    · rw [writeD, if_pos (by simpa using he), lookupD_cons, lookupD_cons,
        if_neg (Ne.symm h), if_neg (by rw [he]; exact Ne.symm h)]
    · rw [writeD, if_neg (by simpa using he), lookupD_cons, lookupD_cons]
      by_cases he' : e.1 = k'
      · rw [if_pos he', if_pos he']
      · rw [if_neg he', if_neg he']
        exact ih

/-- `HashSet::insert` on a set modelled as a duplicate-free list. -/
def insertS (l : List String) (s : String) : List String :=
  if s ∈ l then l else l ++ [s]

/-- The on-disk state of one store directory: the `pages/` and `images/`
    directories, the persisted `edited_entries.json` Dirty Set (both sets),
    and the `backup_<n>` directories. -/
structure Store where
  pages : List (String × WeekPage)
  images : List (String × String)
  edited_pages : List String
  edited_images : List String
  backups : List (Nat × List (String × WeekPage))
deriving DecidableEq

def emptyStore : Store :=
  { pages := [], images := [], edited_pages := [], edited_images := [], backups := [] }

/-- The shard update inside `write` (storage.rs:129-143): clear `uploaded_at`
    (so sync uploads it), then replace the page at the position whose
    `created_at` equals the incoming page's, or append when there is none. -/
def writeIntoWeekPage (week_page : WeekPage) (page : Page) : WeekPage :=
  let wp : WeekPage := { week_page with uploaded_at := none }
  match wp.pages.findIdx? (fun old_page => page.created_at == old_page.created_at) with
  | some pos => { wp with pages := wp.pages.set pos page }
  | none => { wp with pages := wp.pages ++ [page] }

/-- `write` (storage.rs:109-156).  The shard path is computed from
    `Utc::today()` (storage.rs:110) — the invocation date, made an explicit
    `today` parameter here — and NOT from `page.created_at`.  The shard is
    loaded if present, else created empty; the filename is recorded in the
    Dirty Set; the updated shard is persisted as a whole file. -/
def write (today : Int) (s : Store) (page : Page) : Store :=
  let filename := page_filename today
  let week_page := match lookupD s.pages filename with
    | some wp => wp
    | none => WeekPage.new
  let week_page := writeIntoWeekPage week_page page
  { s with
    edited_pages := insertS s.edited_pages filename,
    pages := writeD s.pages filename week_page }

/-- The parsed shard stored at `today`'s filename (empty if absent). -/
def shardAt (s : Store) (today : Int) : WeekPage :=
  (lookupD s.pages (page_filename today)).getD WeekPage.new

theorem shardAt_write (today : Int) (s : Store) (page : Page) :
    shardAt (write today s page) today = writeIntoWeekPage (shardAt s today) page := by
  simp only [shardAt, write]
  rw [lookupD_writeD_self]
  cases h : lookupD s.pages (page_filename today) with
  | none => rfl
  | some wp => rfl

theorem mem_writeIntoWeekPage (wp : WeekPage) (p : Page) :
    p ∈ (writeIntoWeekPage wp p).pages ∧ (writeIntoWeekPage wp p).uploaded_at = none := by
  simp only [writeIntoWeekPage]
  cases hf : wp.pages.findIdx? (fun old_page => p.created_at == old_page.created_at) with
  | none => simp
  | some pos =>
    obtain ⟨hlt, hpred, _⟩ := List.findIdx?_eq_some_iff_getElem.mp hf
    exact ⟨List.mem_set _ _ hlt _, rfl⟩

/-- A concrete page created on day 0 (1970-01-01, week 1969-12-28..1970-01-03). -/
def pageEpoch : Page :=
  { id := "p0", title := "epoch page", text := "body", hidden := false,
    created_at := { day := 0, tod := 0 }, updated_at := [{ day := 0, tod := 0 }] }

/-- Claim C1 counterexample: invoking `write` on day 14 (1970-01-15) with a
    page whose `created_at` is day 0 stores the page in the shard of the
    *invocation* week `1970-01-11..1970-01-17`, not in the shard derived from
    `created_at`'s week: that file stays absent. -/
theorem claim_c1_counterexample :
    page_filename pageEpoch.created_at.day ≠ page_filename 14 ∧
    lookupD (write 14 emptyStore pageEpoch).pages (page_filename pageEpoch.created_at.day) =
      none ∧
    lookupD (write 14 emptyStore pageEpoch).pages (page_filename 14) =
      some { pages := [pageEpoch], uploaded_at := none } := by decide

/-- Claim C1 (amended): `write(p)` stores `p` into the shard file whose name is
    derived from the *invocation date's* (`Utc::today()`) Sunday-Saturday week;
    the only file `write` touches is that one, irrespective of
    `p.created_at`. -/
theorem claim_c1_write_shard_from_invocation_date (today : Int) (s : Store) (page : Page) :
    (∃ wp, lookupD (write today s page).pages (page_filename today) = some wp ∧
      page ∈ wp.pages ∧ wp.uploaded_at = none) ∧
    (∀ f, f ≠ page_filename today →
      lookupD (write today s page).pages f = lookupD s.pages f) := by
  constructor
  · refine ⟨writeIntoWeekPage (shardAt s today) page, ?_, ?_, ?_⟩
    · have h := shardAt_write today s page
      simp only [write]
      rw [lookupD_writeD_self]
      simp only [write, shardAt] at h ⊢
      rw [lookupD_writeD_self] at h
      simp only [Option.getD_some] at h
      rw [h]
    · exact (mem_writeIntoWeekPage _ _).1
    · exact (mem_writeIntoWeekPage _ _).2
  · intro f hf
    simp only [write]
    exact lookupD_writeD_ne _ _ _ _ hf

/-- Witness for the amended C1 at concrete inputs. -/
theorem claim_c1_write_shard_from_invocation_date_witness :
    lookupD (write 14 emptyStore pageEpoch).pages "1969-12-28-1970-01-03.json" =
      lookupD emptyStore.pages "1969-12-28-1970-01-03.json" :=
  (claim_c1_write_shard_from_invocation_date 14 emptyStore pageEpoch).2
    "1969-12-28-1970-01-03.json" (by decide)

theorem countP_set_true {α : Type} (l : List α) (i : Nat) (p : α) (pr : α → Bool) :
    ∀ (hi : i < l.length), pr (l.get ⟨i, hi⟩) = true → pr p = true →
    (l.set i p).countP pr = l.countP pr := by
  induction l generalizing i with
  | nil => intro hi; simp at hi
  | cons a t ih =>
    intro hi hold hnew
    cases i with
    | zero =>
      simp only [List.set_cons_zero, List.countP_cons]
      simp only [List.get] at hold
      rw [hold, hnew]
    | succ n =>
      simp only [List.set_cons_succ, List.countP_cons]
      simp only [List.get] at hold
      rw [ih n (by simpa using hi) hold hnew]

theorem countP_writeIntoWeekPage (wp : WeekPage) (p : Page)
    (h : wp.pages.countP (fun q => p.created_at == q.created_at) ≤ 1) :
    (writeIntoWeekPage wp p).pages.countP (fun q => p.created_at == q.created_at) = 1 := by
  simp only [writeIntoWeekPage]
  cases hf : wp.pages.findIdx? (fun old_page => p.created_at == old_page.created_at) with
  | none =>
    have hzero : wp.pages.countP (fun q => p.created_at == q.created_at) = 0 := by
      rw [List.countP_eq_zero]
      exact fun a ha => by simpa using List.findIdx?_eq_none_iff.mp hf a ha
    simp [List.countP_append, hzero, List.countP_cons]
  | some pos =>
    obtain ⟨hlt, hpred, _⟩ := List.findIdx?_eq_some_iff_getElem.mp hf
    have hone : 1 ≤ wp.pages.countP (fun q => p.created_at == q.created_at) :=
      List.countP_pos.mpr ⟨wp.pages[pos], List.getElem_mem _, hpred⟩
    have heq : (wp.pages.set pos p).countP (fun q => p.created_at == q.created_at) =
        wp.pages.countP (fun q => p.created_at == q.created_at) :=
      countP_set_true _ _ _ _ hlt (by simpa using hpred) (by simp)
    simp only []
    omega

/-- Pages for the C6 scenario: a shard that already holds two pages with the
    same `created_at` (reachable e.g. through `integrate`, which merges by
    `id`, not by `created_at`), and the two incoming writes. -/
def pageDupA : Page :=
  { id := "a", title := "dup a", text := "a", hidden := false,
    created_at := { day := 0, tod := 0 }, updated_at := [{ day := 0, tod := 0 }] }

def pageDupB : Page :=
  { id := "b", title := "dup b", text := "b", hidden := false,
    created_at := { day := 0, tod := 0 }, updated_at := [{ day := 0, tod := 0 }] }

def pageNew1 : Page :=
  { id := "c", title := "first write", text := "one", hidden := false,
    created_at := { day := 0, tod := 0 }, updated_at := [{ day := 0, tod := 0 }] }

def pageNew2 : Page :=
  { id := "d", title := "second write", text := "two", hidden := false,
    created_at := { day := 0, tod := 0 }, updated_at := [{ day := 0, tod := 1 }] }

def storeWithDupShard : Store :=
  { pages := [(page_filename 0, { pages := [pageDupA, pageDupB], uploaded_at := none })],
    images := [], edited_pages := [], edited_images := [], backups := [] }

/-- Claim C6 counterexample: over a shard that already contains two pages with
    the target `created_at`, writing `p1` then `p2` (same `created_at`) leaves
    TWO pages with that timestamp, not exactly one: `write` only replaces the
    first position found. -/
theorem claim_c6_counterexample :
    (shardAt (write 0 (write 0 storeWithDupShard pageNew1) pageNew2) 0).pages.countP
      (fun q => pageNew2.created_at == q.created_at) = 2 := by decide

/-- Claim C6 (amended): provided the shard holds at most one page with the
    incoming `created_at` (which is all `write` itself ever produces), writing
    `p1` then `p2` with equal `created_at` leaves exactly one page with that
    timestamp — `p2`, replaced in place at the position found in the shard
    rather than appended. -/
theorem claim_c6_replace_on_same_timestamp (today : Int) (s : Store) (p1 p2 : Page)
    (hct : p1.created_at = p2.created_at)
    (hcount : (shardAt s today).pages.countP
      (fun q => p2.created_at == q.created_at) ≤ 1) :
    (shardAt (write today (write today s p1) p2) today).pages.countP
      (fun q => p2.created_at == q.created_at) = 1 ∧
    p2 ∈ (shardAt (write today (write today s p1) p2) today).pages ∧
    (∃ i, (shardAt (write today s p1) today).pages.findIdx?
        (fun q => p2.created_at == q.created_at) = some i ∧
      (shardAt (write today (write today s p1) p2) today).pages =
        (shardAt (write today s p1) today).pages.set i p2) := by
  rw [shardAt_write, shardAt_write]
  have hcount1 : (writeIntoWeekPage (shardAt s today) p1).pages.countP
      (fun q => p2.created_at == q.created_at) = 1 := by
    rw [← hct] at hcount ⊢
    exact countP_writeIntoWeekPage _ _ hcount
  set wp1 := writeIntoWeekPage (shardAt s today) p1 with hwp1
  clear_value wp1
  have hpos : 0 < wp1.pages.countP (fun q => p2.created_at == q.created_at) := by omega
  obtain ⟨x, hx, hpx⟩ := List.countP_pos.mp hpos
  have hidx : (wp1.pages.findIdx? (fun q => p2.created_at == q.created_at)).isSome := by
    rw [List.findIdx?_isSome, List.any_eq_true]
    exact ⟨x, hx, hpx⟩
  obtain ⟨i, hi⟩ := Option.isSome_iff_exists.mp hidx
  obtain ⟨hlt, hpi, _⟩ := List.findIdx?_eq_some_iff_getElem.mp hi
  have hpages : (writeIntoWeekPage wp1 p2).pages = wp1.pages.set i p2 := by
    simp only [writeIntoWeekPage]
    rw [show (wp1.pages.findIdx?
        (fun old_page => p2.created_at == old_page.created_at)) = some i from hi]
  refine ⟨?_, ?_, i, hi, hpages⟩
  · rw [hpages]
    rw [countP_set_true _ _ _ _ hlt (by simpa using hpi) (by simp)]
    exact hcount1
  · rw [hpages]
    exact List.mem_set _ _ hlt _

/-- Witness for the amended C6 at concrete inputs. -/
theorem claim_c6_replace_on_same_timestamp_witness :
    (shardAt (write 0 (write 0 emptyStore pageNew1) pageNew2) 0).pages.countP
      (fun q => pageNew2.created_at == q.created_at) = 1 :=
  (claim_c6_replace_on_same_timestamp 0 emptyStore pageNew1 pageNew2
    (by decide) (by decide)).1

/-- `HashMap::entry(..).or_insert(..)`: insert only when the key is absent. -/
def orInsertD {α : Type} (dir : List (String × α)) (k : String) (v : α) :
    List (String × α) :=
  if (lookupD dir k).isSome then dir else dir ++ [(k, v)]

theorem lookupD_append_right {α : Type} (acc : List (String × α)) (k k' : String) (v : α)
    (h : k' ≠ k) : lookupD (acc ++ [(k, v)]) k' = lookupD acc k' := by
  induction acc with
  | nil =>
    simp only [List.nil_append]
    rw [lookupD_cons, if_neg (Ne.symm h)]
  | cons e rest ih =>
    simp only [List.cons_append]
    rw [lookupD_cons, lookupD_cons]
    by_cases he : e.1 = k'
    · rw [if_pos he, if_pos he]
    · rw [if_neg he, if_neg he]
      exact ih

theorem lookupD_append_self {α : Type} (acc : List (String × α)) (k : String) (v : α)
    (h : lookupD acc k = none) : lookupD (acc ++ [(k, v)]) k = some v := by
  induction acc with
  | nil =>
    simp only [List.nil_append]
    rw [lookupD_cons, if_pos rfl]
  | cons e rest ih =>
    rw [lookupD_cons] at h
    by_cases he : e.1 = k
    · rw [if_pos he] at h
      exact absurd h (by simp)
    · rw [if_neg he] at h
      simp only [List.cons_append]
      rw [lookupD_cons, if_neg he]
      exact ih h

theorem lookupD_orInsertD_ne {α : Type} (acc : List (String × α)) (k k' : String) (v : α)
    (h : k' ≠ k) : lookupD (orInsertD acc k v) k' = lookupD acc k' := by
  unfold orInsertD
  by_cases hs : (lookupD acc k).isSome
  · rw [if_pos hs]
  · rw [if_neg hs]
    exact lookupD_append_right acc k k' v h

theorem lookupD_orInsertD_self_none {α : Type} (acc : List (String × α)) (k : String) (v : α)
    (h : lookupD acc k = none) : lookupD (orInsertD acc k v) k = some v := by
  unfold orInsertD
  rw [if_neg (by simp [h])]
  exact lookupD_append_self acc k v h

/-- `FileState` (storage.rs:36-41). -/
structure FileState where
  exists_on_local : Bool
  exists_on_remote : Bool
  is_edited : Bool
deriving DecidableEq

/-- The first loop of `get_file_map` (storage.rs:275-300) over the remote
    file listing: locally present and edited files are classified
    `(true, true, true)`; locally absent files are asserted not to be in the
    Dirty Set (panic modelled as `Except.error`) and classified
    `(false, true, false)`; locally present unedited files get no entry. -/
def gfmRemote {α : Type} (localDir : List (String × α)) (edited : List String) :
    List (String × FileState) → List String → Except String (List (String × FileState))
  | acc, [] => Except.ok acc
  | acc, f :: rest =>
    if (lookupD localDir f).isSome then
      if f ∈ edited then
        gfmRemote localDir edited (writeD acc f ⟨true, true, true⟩) rest
      else
        gfmRemote localDir edited acc rest
    else
      if f ∈ edited then
        Except.error "assertion failed: !edited_files.contains(file_name)"
      else
        gfmRemote localDir edited (writeD acc f ⟨false, true, false⟩) rest

/-- The second loop of `get_file_map` (storage.rs:302-310) over the Dirty
    Set: every entry is asserted to exist locally (panic modelled as
    `Except.error`), then classified `(true, false, true)` unless already
    present in the map. -/
def gfmEdited {α : Type} (localDir : List (String × α)) :
    List (String × FileState) → List String → Except String (List (String × FileState))
  | acc, [] => Except.ok acc
  | acc, f :: rest =>
    if (lookupD localDir f).isSome then
      gfmEdited localDir (orInsertD acc f ⟨true, false, true⟩) rest
    else
      Except.error "assertion failed: local_files_dir.join(file_name).exists()"

/-- `get_file_map` (storage.rs:265-313). -/
def get_file_map {α : Type} (localDir : List (String × α)) (edited : List String)
    (files_on_remote : List String) : Except String (List (String × FileState)) :=
  match gfmRemote localDir edited [] files_on_remote with
  | Except.ok acc => gfmEdited localDir acc edited
  | Except.error e => Except.error e

/-- The three tri-state combinations that reach an action in `sync`
    (storage.rs:341-395): download, upload, merge. -/
def legalState (st : FileState) : Prop :=
  st = { exists_on_local := false, exists_on_remote := true, is_edited := false } ∨
  st = { exists_on_local := true, exists_on_remote := false, is_edited := true } ∨
  st = { exists_on_local := true, exists_on_remote := true, is_edited := true }

instance (st : FileState) : Decidable (legalState st) := by unfold legalState; infer_instance

theorem gfmRemote_legal {α : Type} (localDir : List (String × α)) (edited : List String) :
    ∀ (remote : List String) (acc : List (String × FileState)),
    (∀ f st, lookupD acc f = some st → legalState st) →
    ∀ result, gfmRemote localDir edited acc remote = Except.ok result →
    ∀ f st, lookupD result f = some st → legalState st := by
  intro remote
  induction remote with
  | nil =>
    intro acc hacc result hres f st hl
    simp only [gfmRemote, Except.ok.injEq] at hres
    subst hres
    exact hacc f st hl
  | cons g rest ih =>
    intro acc hacc result hres f st hl
    simp only [gfmRemote] at hres
    by_cases h1 : (lookupD localDir g).isSome
    · rw [if_pos h1] at hres
      by_cases h2 : g ∈ edited
      · rw [if_pos h2] at hres
        refine ih _ ?_ result hres f st hl
        intro f' st' hl'
        by_cases hf : f' = g
        · subst hf
          rw [lookupD_writeD_self] at hl'
          obtain rfl : (⟨true, true, true⟩ : FileState) = st' := by injection hl'
          right; right; rfl
        · rw [lookupD_writeD_ne _ _ _ _ hf] at hl'
          exact hacc f' st' hl'
      · rw [if_neg h2] at hres
        exact ih _ hacc result hres f st hl
    · rw [if_neg h1] at hres
      by_cases h2 : g ∈ edited
      · rw [if_pos h2] at hres
        exact Except.noConfusion hres
      · rw [if_neg h2] at hres
        refine ih _ ?_ result hres f st hl
        intro f' st' hl'
        by_cases hf : f' = g
        · subst hf
          rw [lookupD_writeD_self] at hl'
          obtain rfl : (⟨false, true, false⟩ : FileState) = st' := by injection hl'
          left; rfl
        · rw [lookupD_writeD_ne _ _ _ _ hf] at hl'
          exact hacc f' st' hl'

theorem gfmEdited_legal {α : Type} (localDir : List (String × α)) :
    ∀ (edited : List String) (acc : List (String × FileState)),
    (∀ f st, lookupD acc f = some st → legalState st) →
    ∀ result, gfmEdited localDir acc edited = Except.ok result →
    ∀ f st, lookupD result f = some st → legalState st := by
  intro edited
  induction edited with
  | nil =>
    intro acc hacc result hres f st hl
    simp only [gfmEdited, Except.ok.injEq] at hres
    subst hres
    exact hacc f st hl
  | cons g rest ih =>
    intro acc hacc result hres f st hl
    simp only [gfmEdited] at hres
    by_cases h1 : (lookupD localDir g).isSome
    · rw [if_pos h1] at hres
      refine ih _ ?_ result hres f st hl
      intro f' st' hl'
      by_cases hf : f' = g
      · subst hf
        cases haccg : lookupD acc f' with
        | some w =>
          rw [show orInsertD acc f' ⟨true, false, true⟩ = acc from by
            unfold orInsertD; rw [if_pos (by simp [haccg])]] at hl'
          exact hacc f' st' hl'
        | none =>
          rw [lookupD_orInsertD_self_none _ _ _ haccg] at hl'
          obtain rfl : (⟨true, false, true⟩ : FileState) = st' := by injection hl'
          right; left; rfl
      · rw [lookupD_orInsertD_ne _ _ _ _ hf] at hl'
        exact hacc f' st' hl'
    · rw [if_neg h1] at hres
      exact Except.noConfusion hres

theorem gfmEdited_error {α : Type} (localDir : List (String × α)) :
    ∀ (edited : List String) (acc : List (String × FileState)),
    (∃ f ∈ edited, lookupD localDir f = none) →
    ∃ msg, gfmEdited localDir acc edited = Except.error msg := by
  intro edited
  induction edited with
  | nil =>
    intro acc h
    obtain ⟨f, hf, _⟩ := h
    exact absurd hf (List.not_mem_nil f)
  | cons g rest ih =>
    intro acc h
    obtain ⟨f, hf, hnone⟩ := h
    by_cases h1 : (lookupD localDir g).isSome
    · have hfrest : f ∈ rest := by
        cases List.mem_cons.mp hf with
        | inl heq => subst heq; rw [hnone] at h1; simp at h1
        | inr hr => exact hr
      obtain ⟨msg, hmsg⟩ := ih (orInsertD acc g ⟨true, false, true⟩) ⟨f, hfrest, hnone⟩
      exact ⟨msg, by simp only [gfmEdited]; rw [if_pos h1]; exact hmsg⟩
    · exact ⟨_, by simp only [gfmEdited]; rw [if_neg h1]⟩

theorem gfmRemote_preserves_none {α : Type} (localDir : List (String × α))
    (edited : List String) (f : String) (hl : (lookupD localDir f).isSome)
    (he : f ∉ edited) :
    ∀ (remote : List String) (acc : List (String × FileState)),
    lookupD acc f = none →
    ∀ result, gfmRemote localDir edited acc remote = Except.ok result →
    lookupD result f = none := by
  intro remote
  induction remote with
  | nil =>
    intro acc hacc result hres
    simp only [gfmRemote, Except.ok.injEq] at hres
    subst hres
    exact hacc
  | cons g rest ih =>
    intro acc hacc result hres
    simp only [gfmRemote] at hres
    by_cases h1 : (lookupD localDir g).isSome
    · rw [if_pos h1] at hres
      by_cases h2 : g ∈ edited
      · rw [if_pos h2] at hres
        have hfg : f ≠ g := fun hh => he (hh ▸ h2)
        exact ih _ (by rw [lookupD_writeD_ne _ _ _ _ hfg]; exact hacc) result hres
      · rw [if_neg h2] at hres
        exact ih _ hacc result hres
    · rw [if_neg h1] at hres
      by_cases h2 : g ∈ edited
      · rw [if_pos h2] at hres
        exact Except.noConfusion hres
      · rw [if_neg h2] at hres
        have hfg : f ≠ g := fun hh => h1 (hh ▸ hl)
        exact ih _ (by rw [lookupD_writeD_ne _ _ _ _ hfg]; exact hacc) result hres

theorem gfmEdited_preserves_none {α : Type} (localDir : List (String × α)) (f : String) :
    ∀ (edited : List String) (acc : List (String × FileState)),
    f ∉ edited → lookupD acc f = none →
    ∀ result, gfmEdited localDir acc edited = Except.ok result →
    lookupD result f = none := by
  intro edited
  induction edited with
  | nil =>
    intro acc _ hacc result hres
    simp only [gfmEdited, Except.ok.injEq] at hres
    subst hres
    exact hacc
  | cons g rest ih =>
    intro acc he hacc result hres
    simp only [gfmEdited] at hres
    by_cases h1 : (lookupD localDir g).isSome
    · rw [if_pos h1] at hres
      have hfg : f ≠ g := fun hh => he (hh ▸ List.mem_cons_self g rest)
      refine ih _ (fun hh => he (List.mem_cons_of_mem g hh)) ?_ result hres
      rw [lookupD_orInsertD_ne _ _ _ _ hfg]
      exact hacc
    · rw [if_neg h1] at hres
      exact Except.noConfusion hres

/-- Claim C4: the reconciliation classifier.  (i) Whenever `get_file_map`
    succeeds, every entry of the returned map is one of the three table-legal
    `(local, remote, edited)` combinations, so only those reach an action in
    `sync`; (ii) any store violating well-formedness — a Dirty Set entry whose
    file is absent locally (in particular one also listed remotely) — makes
    the classifier abort via a failed assertion instead of proceeding;
    (iii) files present on both sides but unedited are given no entry and
    hence no action. -/
theorem claim_c4_classifier_totality {α : Type} (localDir : List (String × α))
    (edited : List String) (remoteList : List String) :
    (∀ result, get_file_map localDir edited remoteList = Except.ok result →
      ∀ f st, lookupD result f = some st → legalState st) ∧
    ((∃ f ∈ edited, lookupD localDir f = none) →
      ∃ msg, get_file_map localDir edited remoteList = Except.error msg) ∧
    (∀ f, f ∈ remoteList → (lookupD localDir f).isSome → f ∉ edited →
      ∀ result, get_file_map localDir edited remoteList = Except.ok result →
        lookupD result f = none) := by
  refine ⟨?_, ?_, ?_⟩
  · intro result hres f st hl
    unfold get_file_map at hres
    cases hgr : gfmRemote localDir edited ([] : List (String × FileState)) remoteList with
    | error e => rw [hgr] at hres; exact Except.noConfusion hres
    | ok acc =>
      rw [hgr] at hres
      have hacc := gfmRemote_legal localDir edited remoteList []
        (fun f' st' hl' => by simp [lookupD] at hl') acc hgr
      exact gfmEdited_legal localDir edited acc hacc result hres f st hl
  · intro hbad
    unfold get_file_map
    cases hgr : gfmRemote localDir edited ([] : List (String × FileState)) remoteList with
    | error e => exact ⟨e, rfl⟩
    | ok acc => exact gfmEdited_error localDir edited acc hbad
  · intro f hfr hfl hfe result hres
    unfold get_file_map at hres
    cases hgr : gfmRemote localDir edited ([] : List (String × FileState)) remoteList with
    | error e => rw [hgr] at hres; exact Except.noConfusion hres
    | ok acc =>
      rw [hgr] at hres
      have hacc := gfmRemote_preserves_none localDir edited f hfl hfe remoteList []
        (by simp [lookupD]) acc hgr
      exact gfmEdited_preserves_none localDir f edited acc hfe hacc result hres

/-- Witness for C4 at concrete inputs: a Dirty Set entry whose file is absent
    locally aborts the classifier. -/
theorem claim_c4_classifier_totality_witness :
    ∃ msg, get_file_map ([] : List (String × WeekPage)) ["w.json"] ["w.json"] =
      Except.error msg :=
  (claim_c4_classifier_totality ([] : List (String × WeekPage)) ["w.json"] ["w.json"]).2.1
    ⟨"w.json", by simp, rfl⟩

theorem mem_insertS_self (l : List String) (s : String) : s ∈ insertS l s := by
  unfold insertS
  by_cases h : s ∈ l
  · rw [if_pos h]; exact h
  · rw [if_neg h]; simp

theorem mem_insertS_of_mem (l : List String) (s x : String) (h : x ∈ l) :
    x ∈ insertS l s := by
  unfold insertS
  by_cases hs : s ∈ l
  · rw [if_pos hs]; exact h
  · rw [if_neg hs]; exact List.mem_append_left _ h

/-- The remote side (Dropbox folders `/pages` and `/images`), as directories
    keyed by filename; `list_files` is the list of keys. -/
structure Remote where
  pages : List (String × WeekPage)
  images : List (String × String)
deriving DecidableEq

/-- One iteration of the page-file loop of `sync` (storage.rs:337-396),
    acting on the pair (local pages dir, remote pages dir):
    `(false, true, false)` downloads the remote shard to the local path;
    `(true, false, true)` stamps `uploaded_at` on an in-memory copy and
    uploads it — the local file is NOT rewritten;
    `(true, true, true)` integrates, stamps `uploaded_at`, and rewrites both
    sides; any other combination is `unreachable!` (modelled as an error). -/
def syncPagesStep (now : DT) (dirs : List (String × WeekPage) × List (String × WeekPage))
    (entry : String × FileState) :
    Except String (List (String × WeekPage) × List (String × WeekPage)) :=
  match entry.2.exists_on_local, entry.2.exists_on_remote, entry.2.is_edited with
  | false, true, false =>
    match lookupD dirs.2 entry.1 with
    | some content => Except.ok (writeD dirs.1 entry.1 content, dirs.2)
    | none => Except.error "download failed"
  | true, false, true =>
    match lookupD dirs.1 entry.1 with
    | some wpage =>
      Except.ok (dirs.1, writeD dirs.2 entry.1 { wpage with uploaded_at := some now })
    | none => Except.error "read failed"
  | true, true, true =>
    match lookupD dirs.1 entry.1, lookupD dirs.2 entry.1 with
    | some wl, some wr =>
      let wpage := { integrate wl wr with uploaded_at := some now }
      Except.ok (writeD dirs.1 entry.1 wpage, writeD dirs.2 entry.1 wpage)
    | _, _ => Except.error "read failed"
  | _, _, _ => Except.error "unreachable"

/-- One iteration of the image-file loop of `sync` (storage.rs:410-437):
    `(false, true, false)` downloads; `(true, true, true)` and
    `(true, false, true)` upload the local image verbatim (local wins);
    anything else is `unreachable!`. -/
def syncImagesStep (dirs : List (String × String) × List (String × String))
    (entry : String × FileState) :
    Except String (List (String × String) × List (String × String)) :=
  match entry.2.exists_on_local, entry.2.exists_on_remote, entry.2.is_edited with
  | false, true, false =>
    match lookupD dirs.2 entry.1 with
    | some content => Except.ok (writeD dirs.1 entry.1 content, dirs.2)
    | none => Except.error "download failed"
  | true, true, true | true, false, true =>
    match lookupD dirs.1 entry.1 with
    | some image => Except.ok (dirs.1, writeD dirs.2 entry.1 image)
    | none => Except.error "read failed"
  | _, _, _ => Except.error "unreachable"

/-- `sync` (storage.rs:315-444): classify the page files against the remote
    listing, run the per-file actions, do the same for image files, then
    clear the Dirty Set (storage.rs:441).  The backup directories are not
    touched (begin/commit/rollback happen in the caller, commands.rs). -/
def sync (now : DT) (s : Store) (r : Remote) : Except String (Store × Remote) :=
  match get_file_map s.pages s.edited_pages (r.pages.map Prod.fst) with
  | Except.error e => Except.error e
  | Except.ok file_map =>
    match file_map.foldlM (syncPagesStep now) (s.pages, r.pages) with
    | Except.error e => Except.error e
    | Except.ok pagesPair =>
      match get_file_map s.images s.edited_images (r.images.map Prod.fst) with
      | Except.error e => Except.error e
      | Except.ok image_map =>
        match image_map.foldlM syncImagesStep (s.images, r.images) with
        | Except.error e => Except.error e
        | Except.ok imagesPair =>
          Except.ok
            ({ pages := pagesPair.1, images := imagesPair.1,
               edited_pages := [], edited_images := [], backups := s.backups },
             { pages := pagesPair.2, images := imagesPair.2 })

deriving instance DecidableEq for Except

/-- The §3 Dirty-Set invariant: a local shard with `uploaded_at == None`
    must be recorded in `page_files` of the Dirty Set. -/
def dirtyInvariant (s : Store) : Prop :=
  ∀ f wp, lookupD s.pages f = some wp → wp.uploaded_at = none → f ∈ s.edited_pages

/-- The store produced by syncing a freshly written page against an empty
    remote (the upload branch). -/
def c2SyncedStore : Store :=
  match sync { day := 0, tod := 0 } (write 0 emptyStore pageEpoch)
      { pages := [], images := [] } with
  | Except.ok (s2, _) => s2
  | Except.error _ => emptyStore

def c2SyncedRemote : Remote :=
  match sync { day := 0, tod := 0 } (write 0 emptyStore pageEpoch)
      { pages := [], images := [] } with
  | Except.ok (_, r2) => r2
  | Except.error _ => { pages := [], images := [] }

/-- Claim C2 counterexample: starting from the reachable store obtained by one
    `write` into an empty store, a successful `sync` against an empty remote
    takes the upload branch, which stamps `uploaded_at` only on the uploaded
    copy and never rewrites the local file, and then clears the Dirty Set —
    the resulting store violates the invariant: the local shard still has
    `uploaded_at = none` but its filename is no longer in `page_files`. -/
theorem claim_c2_counterexample :
    sync { day := 0, tod := 0 } (write 0 emptyStore pageEpoch)
        { pages := [], images := [] } = Except.ok (c2SyncedStore, c2SyncedRemote) ∧
    ¬ dirtyInvariant c2SyncedStore := by
  constructor
  · decide
  · intro h
    exact absurd
      (h (page_filename 0) { pages := [pageEpoch], uploaded_at := none }
        (by decide) rfl)
      (by decide)

/-- Claim C2 (amended): `write` does preserve the Dirty-Set implication — it
    clears `uploaded_at` and records the filename dirty in the same operation.
    `sync`, however, does not: it always clears the Dirty Set, while its
    upload branch `(true, false, true)` stamps `uploaded_at` only on the
    in-memory copy it uploads and leaves the local shard file byte-for-byte
    unchanged (still `uploaded_at = none`), so the implication fails after a
    sync that uploads a local-only shard. -/
theorem claim_c2_dirty_invariant_partial :
    (∀ (today : Int) (s : Store) (p : Page),
      dirtyInvariant s → dirtyInvariant (write today s p)) ∧
    (∀ (now : DT) (s : Store) (r : Remote) (s2 : Store) (r2 : Remote),
      sync now s r = Except.ok (s2, r2) →
        s2.edited_pages = [] ∧ s2.edited_images = []) ∧
    (∀ (now : DT) (lp rp : List (String × WeekPage)) (f : String) (wp : WeekPage),
      lookupD lp f = some wp →
        syncPagesStep now (lp, rp)
            (f, { exists_on_local := true, exists_on_remote := false, is_edited := true }) =
          Except.ok (lp, writeD rp f { wp with uploaded_at := some now })) := by
  refine ⟨?_, ?_, ?_⟩
  · intro today s p hinv f wp hl hup
    simp only [write] at hl ⊢
    by_cases hf : f = page_filename today
    · subst hf
      exact mem_insertS_self _ _
    · rw [lookupD_writeD_ne _ _ _ _ hf] at hl
      exact mem_insertS_of_mem _ _ _ (hinv f wp hl hup)
  · intro now s r s2 r2 h
    unfold sync at h
    cases h1 : get_file_map s.pages s.edited_pages (r.pages.map Prod.fst) with
    | error e => rw [h1] at h; exact Except.noConfusion h
    | ok fm =>
      rw [h1] at h
      dsimp only at h
      cases h2 : fm.foldlM (syncPagesStep now) (s.pages, r.pages) with
      | error e => rw [h2] at h; exact Except.noConfusion h
      | ok pp =>
        rw [h2] at h
        dsimp only at h
        cases h3 : get_file_map s.images s.edited_images (r.images.map Prod.fst) with
        | error e => rw [h3] at h; exact Except.noConfusion h
        | ok im =>
          rw [h3] at h
          dsimp only at h
          cases h4 : im.foldlM syncImagesStep (s.images, r.images) with
          | error e => rw [h4] at h; exact Except.noConfusion h
          | ok ip =>
            rw [h4] at h
            dsimp only at h
            simp only [Except.ok.injEq, Prod.mk.injEq] at h
            obtain ⟨hs2, _⟩ := h
            rw [← hs2]
            exact ⟨rfl, rfl⟩
  · intro now lp rp f wp hl
    simp only [syncPagesStep]
    rw [hl]

/-- Witness for the amended C2 at concrete inputs. -/
theorem claim_c2_dirty_invariant_partial_witness :
    dirtyInvariant (write 0 emptyStore pageEpoch) :=
  claim_c2_dirty_invariant_partial.1 0 emptyStore pageEpoch
    (fun _ _ h _ => Option.noConfusion h)

/-- Look up a backup directory `backup_<id>` by its number. -/
def lookupB (l : List (Nat × List (String × WeekPage))) (id : Nat) :
    Option (List (String × WeekPage)) :=
  (l.find? (fun e => e.1 == id)).map Prod.snd

theorem lookupB_cons (e : Nat × List (String × WeekPage))
    (rest : List (Nat × List (String × WeekPage))) (id : Nat) :
    lookupB (e :: rest) id = if e.1 = id then some e.2 else lookupB rest id := by
  by_cases h : e.1 = id
  · rw [if_pos h]
    unfold lookupB
    rw [show List.find? (fun x => x.1 == id) (e :: rest) = some e from
      List.find?_cons_of_pos _ (by simpa using h)]
    rfl
  · rw [if_neg h]
    unfold lookupB
    rw [show List.find? (fun x => x.1 == id) (e :: rest) =
        List.find? (fun x => x.1 == id) rest from
      List.find?_cons_of_neg _ (by simpa using h)]

theorem lookupB_append_self (l : List (Nat × List (String × WeekPage))) (id : Nat)
    (v : List (String × WeekPage)) (h : lookupB l id = none) :
    lookupB (l ++ [(id, v)]) id = some v := by
  induction l with
  | nil =>
    simp only [List.nil_append]
    rw [lookupB_cons, if_pos rfl]
  | cons e rest ih =>
    rw [lookupB_cons] at h
    by_cases he : e.1 = id
    · rw [if_pos he] at h
      exact absurd h (by simp)
    · rw [if_neg he] at h
      simp only [List.cons_append]
      rw [lookupB_cons, if_neg he]
      exact ih h

theorem lookupB_filter_ne (l : List (Nat × List (String × WeekPage))) (id : Nat) :
    lookupB (l.filter (fun e => !(e.1 == id))) id = none := by
  induction l with
  | nil => rfl
  | cons e rest ih =>
    by_cases he : e.1 = id
    · rw [List.filter_cons_of_neg (by simp [he])]
      exact ih
    · rw [List.filter_cons_of_pos (by simp [he]), lookupB_cons, if_neg he]
      exact ih

/-- `generate_backup_dir_path_not_exists` (storage.rs:454-464): probe
    `backup_1`, `backup_2`, ... and return the first unused number.  The Rust
    loop is unbounded; the model takes fuel and the theorems assume the probe
    succeeded. -/
def findFreeBackupId (backups : List (Nat × List (String × WeekPage))) :
    Nat → Nat → Option Nat
  | 0, _ => none
  | fuel + 1, id =>
    if (lookupB backups id).isSome then findFreeBackupId backups fuel (id + 1)
    else some id

/-- `create_pages_backup` (storage.rs:466-485): allocate the first unused
    `backup_<n>`, create it, and copy every regular file of `pages/` into it
    (a directory has pairwise-distinct filenames, so copying every entry
    reproduces the entry list). -/
def create_pages_backup (fuel : Nat) (s : Store) : Option (Store × Nat) :=
  match findFreeBackupId s.backups fuel 1 with
  | none => none
  | some id => some ({ s with backups := s.backups ++ [(id, s.pages)] }, id)

/-- `remove_pages_backup` (storage.rs:511-516): `remove_dir_all(backup_<id>)`;
    fails if the directory does not exist. -/
def remove_pages_backup (s : Store) (id : Nat) : Option Store :=
  match lookupB s.backups id with
  | none => none
  | some _ => some { s with backups := s.backups.filter (fun e => !(e.1 == id)) }

/-- `rollback` (storage.rs:487-509): delete the live `pages/` directory,
    recreate it empty, copy every regular file of `backup_<id>` back into it,
    then remove `backup_<id>`. -/
def rollback (s : Store) (id : Nat) : Option Store :=
  match lookupB s.backups id with
  | none => none
  | some backupDir => remove_pages_backup { s with pages := backupDir } id

theorem findFreeBackupId_free (backups : List (Nat × List (String × WeekPage))) :
    ∀ (fuel start id : Nat), findFreeBackupId backups fuel start = some id →
      lookupB backups id = none := by
  intro fuel
  induction fuel with
  | zero => intro start id h; exact Option.noConfusion h
  | succ n ih =>
    intro start id h
    simp only [findFreeBackupId] at h
    by_cases hs : (lookupB backups start).isSome
    · rw [if_pos hs] at h
      exact ih (start + 1) id h
    · rw [if_neg hs] at h
      obtain rfl : start = id := by injection h
      simpa using hs

/-- Claim C5: after `create_pages_backup` returns id `n`, arbitrary mutation
    or deletion of files inside `pages/` (any replacement contents
    `newPages`), and `rollback n`, the `pages/` directory holds exactly the
    regular files it held at backup time with identical contents, and the
    `backup_<n>` directory no longer exists. -/
theorem claim_c5_backup_rollback_fidelity (fuel : Nat) (s s1 : Store) (n : Nat)
    (newPages : List (String × WeekPage))
    (hc : create_pages_backup fuel s = some (s1, n)) :
    ∃ s3, rollback { s1 with pages := newPages } n = some s3 ∧
      s3.pages = s.pages ∧ lookupB s3.backups n = none := by
  unfold create_pages_backup at hc
  cases hfree : findFreeBackupId s.backups fuel 1 with
  | none => rw [hfree] at hc; exact Option.noConfusion hc
  | some id =>
    rw [hfree] at hc
    dsimp only at hc
    simp only [Option.some.injEq, Prod.mk.injEq] at hc
    obtain ⟨hs1, rfl⟩ := hc
    have hnone : lookupB s.backups id = none :=
      findFreeBackupId_free s.backups fuel 1 id hfree
    have hlook : lookupB s1.backups id = some s.pages := by
      rw [← hs1]
      exact lookupB_append_self _ _ _ hnone
    refine ⟨{ pages := s.pages,
              images := s1.images,
              edited_pages := s1.edited_pages,
              edited_images := s1.edited_images,
              backups := s1.backups.filter (fun e => !(e.1 == id)) }, ?_, rfl, ?_⟩
    · unfold rollback
      rw [show lookupB ({ s1 with pages := newPages } : Store).backups id = some s.pages
        from hlook]
      dsimp only
      unfold remove_pages_backup
      dsimp only
      rw [show lookupB s1.backups id = some s.pages from hlook]
    · exact lookupB_filter_ne _ _

def c5BackedUpStore : Store :=
  { storeWithDupShard with backups := [(1, storeWithDupShard.pages)] }

/-- Witness for C5 at concrete inputs (backup id 1, pages directory emptied
    before the rollback). -/
theorem claim_c5_backup_rollback_fidelity_witness :
    ∃ s3, rollback { c5BackedUpStore with pages := [] } 1 = some s3 ∧
      s3.pages = storeWithDupShard.pages ∧ lookupB s3.backups 1 = none :=
  claim_c5_backup_rollback_fidelity 1 storeWithDupShard c5BackedUpStore 1 [] (by decide)

/-- `fs::read_to_string` + JSON parse of one shard; a missing file is an
    error (storage.rs:232-233). -/
def readShard (files : List (String × WeekPage)) (name : String) : Except String WeekPage :=
  match lookupD files name with
  | some wp => Except.ok wp
  | none => Except.error "read failed"

/-- The `while date <= end` loop of `get_week_page_range`
    (storage.rs:230-238): read the shard for `date`, step 7 days, and track
    `last_file_path`; returns the shards read and the final `last_file_path`
    (`none` when the loop never ran). -/
def rangeLoop (files : List (String × WeekPage)) (endDay : Int) (date : Int) :
    Except String (List WeekPage × Option String) :=
  if h : date ≤ endDay then
    match readShard files (page_filename date) with
    | Except.error e => Except.error e
    | Except.ok wp =>
      match rangeLoop files endDay (date + 7) with
      | Except.error e => Except.error e
      | Except.ok (rest, last) =>
        Except.ok (wp :: rest, some (last.getD (page_filename date)))
  else Except.ok ([], none)
termination_by (endDay + 1 - date).toNat
decreasing_by omega

/-- `get_week_page_range` (storage.rs:216-249): empty for `start > end`;
    otherwise run the stepping loop, then load the shard for `end`'s week
    separately unless the loop's `last_file_path` already equals it.  The
    `last_file_path.unwrap()` of storage.rs:240 is modelled as an error when
    `None` (it never is for `start <= end`). -/
def get_week_page_range (files : List (String × WeekPage)) (start endd : DT) :
    Except String (List WeekPage) :=
  if DT.lt endd start then Except.ok []
  else
    match rangeLoop files endd.day start.day with
    | Except.error e => Except.error e
    | Except.ok (wpages, lastOpt) =>
      match lastOpt with
      | none => Except.error "unwrap on None"
      | some last_file_path =>
        if last_file_path ≠ page_filename endd.day then
          match readShard files (page_filename endd.day) with
          | Except.error e => Except.error e
          | Except.ok wp => Except.ok (wpages ++ [wp])
        else Except.ok wpages

/-- The dates visited by the stepping loop: `date, date+7, ...` while
    `≤ endDay`. -/
def steppedDates (endDay : Int) (date : Int) : List Int :=
  if h : date ≤ endDay then date :: steppedDates endDay (date + 7) else []
termination_by (endDay + 1 - date).toNat
decreasing_by omega

theorem weekBegin_mono (d1 d2 : Int) (h : d1 ≤ d2) : weekBegin d1 ≤ weekBegin d2 := by
  unfold weekBegin
  omega

theorem weekBegin_add_seven (d : Int) : weekBegin (d + 7) = weekBegin d + 7 := by
  unfold weekBegin
  omega

theorem page_filename_congr (a b : Int) (h : weekBegin a = weekBegin b) :
    page_filename a = page_filename b := by
  rw [page_filename_eq, page_filename_eq, h]

theorem steppedDates_mem (endDay : Int) : ∀ (date d : Int), d ∈ steppedDates endDay date →
    ∃ k : Nat, d = date + 7 * k ∧ d ≤ endDay := by
  have H : ∀ (n : Nat) (date : Int), (endDay + 1 - date).toNat ≤ n →
      ∀ d, d ∈ steppedDates endDay date → ∃ k : Nat, d = date + 7 * k ∧ d ≤ endDay := by
    intro n
    induction n with
    | zero =>
      intro date hn d hd
      rw [steppedDates, dif_neg (by omega)] at hd
      exact absurd hd (List.not_mem_nil d)
    | succ m ih =>
      intro date hn d hd
      by_cases hle : date ≤ endDay
      · rw [steppedDates, dif_pos hle] at hd
        rcases List.mem_cons.mp hd with rfl | hd'
        · exact ⟨0, by push_cast; ring, hle⟩
        · obtain ⟨k, hk, hk2⟩ := ih (date + 7) (by omega) d hd'
          exact ⟨k + 1, by push_cast at hk ⊢; omega, hk2⟩
      · rw [steppedDates, dif_neg hle] at hd
        exact absurd hd (List.not_mem_nil d)
  intro date d hd
  exact H (endDay + 1 - date).toNat date le_rfl d hd

theorem steppedDates_complete (endDay : Int) : ∀ (k : Nat) (date : Int),
    date + 7 * k ≤ endDay → date + 7 * k ∈ steppedDates endDay date := by
  intro k
  induction k with
  | zero =>
    intro date h
    have h0 : date + 7 * ((0 : Nat) : Int) = date := by push_cast; ring
    rw [h0] at h ⊢
    rw [steppedDates, dif_pos h]
    exact List.mem_cons_self _ _
  | succ m ih =>
    intro date h
    have hle : date ≤ endDay := by push_cast at h; omega
    rw [steppedDates, dif_pos hle]
    apply List.mem_cons_of_mem
    have hrw : date + 7 * ((m + 1 : Nat) : Int) = (date + 7) + 7 * (m : Nat) := by
      push_cast; ring
    rw [hrw] at h ⊢
    exact ih (date + 7) h

theorem steppedDates_last (endDay : Int) : ∀ (date l : Int),
    (steppedDates endDay date).getLast? = some l →
    l ≤ endDay ∧ endDay < l + 7 ∧ l ∈ steppedDates endDay date ∧
      ∀ d ∈ steppedDates endDay date, d ≤ l := by
  have H : ∀ (n : Nat) (date : Int), (endDay + 1 - date).toNat ≤ n →
      ∀ l, (steppedDates endDay date).getLast? = some l →
      l ≤ endDay ∧ endDay < l + 7 ∧ l ∈ steppedDates endDay date ∧
        ∀ d ∈ steppedDates endDay date, d ≤ l := by
    intro n
    induction n with
    | zero =>
      intro date hn l hl
      rw [steppedDates, dif_neg (by omega)] at hl
      exact Option.noConfusion hl
    | succ m ih =>
      intro date hn l hl
      by_cases hle : date ≤ endDay
      · rw [steppedDates, dif_pos hle] at hl ⊢
        by_cases hnext : date + 7 ≤ endDay
        · have hcons : steppedDates endDay (date + 7) =
              (date + 7) :: steppedDates endDay (date + 7 + 7) := by
            rw [steppedDates, dif_pos hnext]
          rw [hcons, List.getLast?_cons_cons, ← hcons] at hl
          obtain ⟨hl1, hl2, hl3, hl4⟩ := ih (date + 7) (by omega) l hl
          refine ⟨hl1, hl2, List.mem_cons_of_mem _ hl3, ?_⟩
          intro d hd
          rcases List.mem_cons.mp hd with rfl | hd'
          · obtain ⟨k, hk, _⟩ := steppedDates_mem endDay (d + 7) l hl3
            have hk0 : (0 : Int) ≤ (k : Int) := Int.natCast_nonneg k
            omega
          · exact hl4 d hd'
        · have hnil : steppedDates endDay (date + 7) = [] := by
            rw [steppedDates, dif_neg hnext]
          rw [hnil] at hl ⊢
          have hld : l = date := by simpa using hl.symm
          subst hld
          refine ⟨hle, by omega, List.mem_cons_self _ _, ?_⟩
          intro d hd
          rcases List.mem_cons.mp hd with rfl | hd'
          · exact le_rfl
          · exact absurd hd' (List.not_mem_nil d)
      · rw [steppedDates, dif_neg hle] at hl
        exact Option.noConfusion hl
  intro date l hl
  exact H (endDay + 1 - date).toNat date le_rfl l hl

theorem steppedDates_weekBegin_nodup (endDay : Int) : ∀ (date : Int),
    ((steppedDates endDay date).map weekBegin).Nodup := by
  have H : ∀ (n : Nat) (date : Int), (endDay + 1 - date).toNat ≤ n →
      ((steppedDates endDay date).map weekBegin).Nodup := by
    intro n
    induction n with
    | zero =>
      intro date hn
      rw [steppedDates, dif_neg (by omega)]
      simp
    | succ m ih =>
      intro date hn
      by_cases hle : date ≤ endDay
      · rw [steppedDates, dif_pos hle]
        rw [List.map_cons, List.nodup_cons]
        refine ⟨?_, ih (date + 7) (by omega)⟩
        intro hmem
        obtain ⟨d, hd, hwd⟩ := List.mem_map.mp hmem
        obtain ⟨k, hk, _⟩ := steppedDates_mem endDay (date + 7) d hd
        have hmono := weekBegin_mono (date + 7) d (by
          have hk0 : (0 : Int) ≤ (k : Int) := Int.natCast_nonneg k
          omega)
        rw [weekBegin_add_seven] at hmono
        omega
      · rw [steppedDates, dif_neg hle]
        simp
  intro date
  exact H (endDay + 1 - date).toNat date le_rfl

theorem rangeLoop_spec (files : List (String × WeekPage)) (endDay : Int) :
    ∀ (date : Int) (wpages : List WeekPage) (lastOpt : Option String),
    rangeLoop files endDay date = Except.ok (wpages, lastOpt) →
    (steppedDates endDay date).mapM (fun d => readShard files (page_filename d)) =
      Except.ok wpages ∧
    lastOpt = (steppedDates endDay date).getLast?.map page_filename := by
  have H : ∀ (n : Nat) (date : Int), (endDay + 1 - date).toNat ≤ n →
      ∀ wpages lastOpt, rangeLoop files endDay date = Except.ok (wpages, lastOpt) →
      (steppedDates endDay date).mapM (fun d => readShard files (page_filename d)) =
        Except.ok wpages ∧
      lastOpt = (steppedDates endDay date).getLast?.map page_filename := by
    intro n
    induction n with
    | zero =>
      intro date hn wpages lastOpt h
      rw [rangeLoop, dif_neg (by omega)] at h
      rw [steppedDates, dif_neg (by omega)]
      simp only [Except.ok.injEq, Prod.mk.injEq] at h
      obtain ⟨h1, h2⟩ := h
      subst h1
      subst h2
      exact ⟨rfl, rfl⟩
    | succ m ih =>
      intro date hn wpages lastOpt h
      by_cases hle : date ≤ endDay
      · rw [rangeLoop, dif_pos hle] at h
        rw [steppedDates, dif_pos hle]
        cases hread : readShard files (page_filename date) with
        | error e => rw [hread] at h; exact Except.noConfusion h
        | ok wp =>
          rw [hread] at h
          dsimp only at h
          cases hrec : rangeLoop files endDay (date + 7) with
          | error e => rw [hrec] at h; exact Except.noConfusion h
          | ok pr =>
            obtain ⟨rest, last⟩ := pr
            rw [hrec] at h
            dsimp only at h
            simp only [Except.ok.injEq, Prod.mk.injEq] at h
            obtain ⟨hw, hlast⟩ := h
            obtain ⟨hmap, hl⟩ := ih (date + 7) (by omega) rest last hrec
            constructor
            · rw [List.mapM_cons, hread, hmap]
              rw [← hw]
              rfl
            · rw [← hlast, hl]
              cases hsr : steppedDates endDay (date + 7) with
              | nil =>
                simp [List.getLast?_singleton]
              | cons a t =>
                rw [List.getLast?_cons_cons]
                have hne : (a :: t).getLast?.isSome := by
                  rw [List.getLast?_isSome]
                  simp
                obtain ⟨le, hle2⟩ := Option.isSome_iff_exists.mp hne
                rw [hle2]
                rfl
      · rw [rangeLoop, dif_neg hle] at h
        rw [steppedDates, dif_neg hle]
        simp only [Except.ok.injEq, Prod.mk.injEq] at h
        obtain ⟨h1, h2⟩ := h
        subst h1
        subst h2
        exact ⟨rfl, rfl⟩
  intro date wpages lastOpt h
  exact H (endDay + 1 - date).toNat date le_rfl wpages lastOpt h

/-- Claim C8: for `start <= end` (within the supported year range), a
    successful `get_week_page_range(start, end)` returns exactly the shards of
    a list of dates consisting of the 7-day steps from `start` while not past
    `end`, plus `end` itself when the stepping's last file differs from
    `end`'s; every returned week appears exactly once and the week containing
    `end` is always among them. -/
theorem claim_c8_range_covers_weeks (files : List (String × WeekPage)) (start endd : DT)
    (ws : List WeekPage)
    (hse : ¬ DT.lt endd start)
    (hlo : -699000 ≤ start.day) (hhi : endd.day ≤ 2879000)
    (hok : get_week_page_range files start endd = Except.ok ws) :
    ∃ dates : List Int,
      dates.mapM (fun d => readShard files (page_filename d)) = Except.ok ws ∧
      (∀ d ∈ dates, (∃ k : Nat, d = start.day + 7 * k ∧ d ≤ endd.day) ∨ d = endd.day) ∧
      (∀ k : Nat, start.day + 7 * (k : Int) ≤ endd.day →
        start.day + 7 * (k : Int) ∈ dates) ∧
      (dates.map weekBegin).Nodup ∧
      weekBegin endd.day ∈ dates.map weekBegin := by
  have hd : start.day ≤ endd.day := by
    by_contra hc
    exact hse (Or.inl (by omega))
  unfold get_week_page_range at hok
  rw [if_neg hse] at hok
  cases hrl : rangeLoop files endd.day start.day with
  | error e => rw [hrl] at hok; exact Except.noConfusion hok
  | ok pr =>
    obtain ⟨wpages, lastOpt⟩ := pr
    rw [hrl] at hok
    dsimp only at hok
    obtain ⟨hmap, hlast⟩ := rangeLoop_spec files endd.day start.day wpages lastOpt hrl
    have hcons : steppedDates endd.day start.day =
        start.day :: steppedDates endd.day (start.day + 7) := by
      rw [steppedDates, dif_pos hd]
    have hsome : (steppedDates endd.day start.day).getLast?.isSome := by
      rw [List.getLast?_isSome, hcons]
      simp
    obtain ⟨l, hl⟩ := Option.isSome_iff_exists.mp hsome
    rw [hl] at hlast
    simp only [Option.map_some'] at hlast
    subst hlast
    dsimp only at hok
    obtain ⟨hl1, hl2, hl3, hl4⟩ := steppedDates_last endd.day start.day l hl
    obtain ⟨kl, hkl, _⟩ := steppedDates_mem endd.day start.day l hl3
    have hkl0 : (0 : Int) ≤ (kl : Int) := Int.natCast_nonneg kl
    have hokl : dateOk l := ⟨by omega, by omega⟩
    have hoke : dateOk endd.day := ⟨by omega, by omega⟩
    by_cases hpf : page_filename l = page_filename endd.day
    · rw [if_neg (not_not_intro hpf)] at hok
      simp only [Except.ok.injEq] at hok
      have hweq : weekBegin l = weekBegin endd.day := page_filename_inj l endd.day hokl hoke hpf
      refine ⟨steppedDates endd.day start.day, ?_, ?_, ?_, ?_, ?_⟩
      · rw [hmap, hok]
      · intro d hdm
        obtain ⟨k, hk, hk2⟩ := steppedDates_mem endd.day start.day d hdm
        exact Or.inl ⟨k, hk, hk2⟩
      · intro k hk
        exact steppedDates_complete endd.day k start.day hk
      · exact steppedDates_weekBegin_nodup endd.day start.day
      · rw [← hweq]
        exact List.mem_map.mpr ⟨l, hl3, rfl⟩
    · rw [if_pos hpf] at hok
      cases hre : readShard files (page_filename endd.day) with
      | error e => rw [hre] at hok; exact Except.noConfusion hok
      | ok wp =>
        rw [hre] at hok
        dsimp only at hok
        simp only [Except.ok.injEq] at hok
        have hwne : weekBegin l ≠ weekBegin endd.day :=
          fun hh => hpf (page_filename_congr _ _ hh)
        have hwlt : weekBegin l < weekBegin endd.day :=
          lt_of_le_of_ne (weekBegin_mono l endd.day hl1) hwne
        refine ⟨steppedDates endd.day start.day ++ [endd.day], ?_, ?_, ?_, ?_, ?_⟩
        · rw [← hok]
          simp only [List.mapM_append, List.mapM_cons, List.mapM_nil, hmap, hre]
          rfl
        · intro d hdm
          rcases List.mem_append.mp hdm with hdm' | hdm'
          · obtain ⟨k, hk, hk2⟩ := steppedDates_mem endd.day start.day d hdm'
            exact Or.inl ⟨k, hk, hk2⟩
          · right
            simpa using hdm'
        · intro k hk
          exact List.mem_append_left _ (steppedDates_complete endd.day k start.day hk)
        · rw [List.map_append]
          rw [List.nodup_append]
          refine ⟨steppedDates_weekBegin_nodup endd.day start.day, by simp, ?_⟩
          intro b hb
          obtain ⟨d, hdm, hbd⟩ := List.mem_map.mp hb
          have hdl : d ≤ l := hl4 d hdm
          have : weekBegin d ≤ weekBegin l := weekBegin_mono d l hdl
          simp only [List.map_cons, List.map_nil, List.mem_singleton]
          omega
        · rw [List.map_append]
          apply List.mem_append_right
          simp

def c8W1 : WeekPage := { pages := [], uploaded_at := some { day := 1, tod := 0 } }

def c8W2 : WeekPage := { pages := [], uploaded_at := some { day := 2, tod := 0 } }

def c8W3 : WeekPage := { pages := [], uploaded_at := some { day := 3, tod := 0 } }

/-- A store with the three shards of the weeks 2024-03-03..09, 03-10..16,
    03-17..23. -/
def c8Files : List (String × WeekPage) :=
  [("2024-03-03-2024-03-09.json", c8W1), ("2024-03-10-2024-03-16.json", c8W2),
   ("2024-03-17-2024-03-23.json", c8W3)]

theorem c8_run_eq :
    get_week_page_range c8Files { day := 19788, tod := 0 } { day := 19799, tod := 0 } =
      Except.ok [c8W1, c8W2, c8W3] := by
  have h1 : rangeLoop c8Files 19799 19802 = Except.ok ([], none) := by
    rw [rangeLoop, dif_neg (by decide)]
  have h2 : rangeLoop c8Files 19799 19795 =
      Except.ok ([c8W2], some "2024-03-10-2024-03-16.json") := by
    rw [rangeLoop, dif_pos (by decide),
      show readShard c8Files (page_filename 19795) = Except.ok c8W2 from by decide,
      show (19795 : Int) + 7 = 19802 from by norm_num, h1]
    dsimp only
    rw [show page_filename 19795 = "2024-03-10-2024-03-16.json" from by decide]
    rfl
  have h3 : rangeLoop c8Files 19799 19788 =
      Except.ok ([c8W1, c8W2], some "2024-03-10-2024-03-16.json") := by
    rw [rangeLoop, dif_pos (by decide),
      show readShard c8Files (page_filename 19788) = Except.ok c8W1 from by decide,
      show (19788 : Int) + 7 = 19795 from by norm_num, h2]
    rfl
  unfold get_week_page_range
  rw [if_neg (by decide : ¬ DT.lt { day := 19799, tod := 0 } { day := 19788, tod := 0 })]
  dsimp only
  rw [h3]
  dsimp only
  rw [if_pos (by decide : "2024-03-10-2024-03-16.json" ≠ page_filename (19799 : Int)),
    show readShard c8Files (page_filename 19799) = Except.ok c8W3 from by decide]
  rfl

/-- Witness for C8 at concrete inputs: an 11-day span 2024-03-06 to
    2024-03-17 whose 7-day stepping does not land on the final week. -/
theorem claim_c8_range_covers_weeks_witness :
    ∃ dates : List Int,
      dates.mapM (fun d => readShard c8Files (page_filename d)) =
        Except.ok [c8W1, c8W2, c8W3] ∧
      (∀ d ∈ dates, (∃ k : Nat, d = 19788 + 7 * k ∧ d ≤ 19799) ∨ d = 19799) ∧
      (∀ k : Nat, (19788 : Int) + 7 * (k : Int) ≤ 19799 →
        (19788 : Int) + 7 * (k : Int) ∈ dates) ∧
      (dates.map weekBegin).Nodup ∧
      weekBegin 19799 ∈ dates.map weekBegin :=
  claim_c8_range_covers_weeks c8Files { day := 19788, tod := 0 } { day := 19799, tod := 0 }
    [c8W1, c8W2, c8W3] (by decide) (by decide) (by decide) c8_run_eq

/- ## Claim C7: shard filename determinism -/

/-- Claim C7: for every timestamp `T`, `find_week` yields the Sunday on or
    before `T`'s date and the Saturday on or after it, and the shard
    filename is `"weekStart-weekEnd.json"` with both dates `%Y-%m-%d`
    formatted; any two timestamps in the same Sunday-Saturday week give the
    same filename, timestamps in different weeks (within the supported year
    range) give different filenames, and day 19788 (2024-03-06, any time of
    day) maps to `"2024-03-03-2024-03-09.json"`. -/
theorem claim_c7_shard_filename_determinism :
    (∀ T : DT, find_week T.day = some (weekBegin T.day, weekBegin T.day + 6) ∧
      page_filename T.day =
        fmtDate (weekBegin T.day) ++ "-" ++ fmtDate (weekBegin T.day + 6) ++ ".json" ∧
      weekdayNum (weekBegin T.day) = 0 ∧ weekdayNum (weekBegin T.day + 6) = 6 ∧
      weekBegin T.day ≤ T.day ∧ T.day ≤ weekBegin T.day + 6) ∧
    (∀ T1 T2 : DT, weekBegin T1.day = weekBegin T2.day →
      page_filename T1.day = page_filename T2.day) ∧
    (∀ T1 T2 : DT, dateOk T1.day → dateOk T2.day →
      weekBegin T1.day ≠ weekBegin T2.day →
      page_filename T1.day ≠ page_filename T2.day) ∧
    page_filename ({ day := 19788, tod := 36000 } : DT).day =
      "2024-03-03-2024-03-09.json" := by
  refine ⟨?_, ?_, ?_, by decide⟩
  · intro T
    refine ⟨find_week_eq T.day, page_filename_eq T.day, ?_, ?_, ?_, ?_⟩ <;>
      · simp only [weekdayNum, weekBegin]
        omega
  · intro T1 T2 h
    exact page_filename_congr T1.day T2.day h
  · intro T1 T2 h1 h2 hne hcontra
    exact hne (page_filename_inj T1.day T2.day h1 h2 hcontra)

/-- Witness for C7 at concrete timestamps: 2024-03-06 and 2024-03-08 share
    a filename, 2024-03-06 and 2024-03-13 (different weeks) do not. -/
theorem claim_c7_shard_filename_determinism_witness :
    page_filename ((19788 : Int)) = page_filename ((19790 : Int)) ∧
    page_filename ((19788 : Int)) ≠ page_filename ((19795 : Int)) :=
  ⟨claim_c7_shard_filename_determinism.2.1
      { day := 19788, tod := 0 } { day := 19790, tod := 0 } (by decide),
    claim_c7_shard_filename_determinism.2.2.1
      { day := 19788, tod := 0 } { day := 19795, tod := 0 }
      (by decide) (by decide) (by decide)⟩

/- ## Claim C9: the v1 → v2 schema migration -/

/-- `convert_week_page_v1_to_v2` (storage.rs:522-538): rebuild every page
    of the shard, copying `title`, `text`, `hidden`, `created_at` and
    `updated_at` and drawing a fresh uuid for `id`
    (`Uuid::new_v4().to_string()`); the random draw made for the `i`-th
    page of the shard is modelled by an id supply `ids : Nat → String`. -/
def convert_week_page_v1_to_v2 (ids : Nat → String) (wpage : WeekPageV1) : WeekPage :=
  { pages := wpage.pages.enum.map (fun p =>
      { id := ids p.1, title := p.2.title, text := p.2.text, hidden := p.2.hidden,
        created_at := p.2.created_at, updated_at := p.2.updated_at }),
    uploaded_at := wpage.uploaded_at }

/-- `fix_1_to_2` (storage.rs:540-558): read every file of the pages
    directory as a `WeekPageV1`, convert it and write it back in place;
    the uuid draws of the whole run are an id supply per file index. -/
def fix_1_to_2 (ids : Nat → Nat → String) (files : List (String × WeekPageV1)) :
    List (String × WeekPage) :=
  files.enum.map (fun e => (e.2.1, convert_week_page_v1_to_v2 (ids e.1) e.2.2))

theorem convert_pages_getElem (ids : Nat → String) (wpage : WeekPageV1) (i : Nat) :
    (convert_week_page_v1_to_v2 ids wpage).pages[i]? =
      wpage.pages[i]?.map (fun v1 =>
        { id := ids i, title := v1.title, text := v1.text, hidden := v1.hidden,
          created_at := v1.created_at, updated_at := v1.updated_at }) := by
  simp only [convert_week_page_v1_to_v2, List.getElem?_map, List.getElem?_enum]
  cases wpage.pages[i]? <;> rfl

/-- Claim C9: the migration keeps `title`, `text`, `hidden`, `created_at`,
    `updated_at` of every page and `uploaded_at` of every shard, gives the
    `i`-th page the freshly drawn id `ids i`, and `fix_1_to_2` applies the
    conversion file by file in place; two runs whose draws differ at any
    in-range index produce different id lists, so the migration is not
    idempotent. -/
theorem claim_c9_migration_fresh_ids_not_idempotent :
    (∀ (ids : Nat → String) (wpage : WeekPageV1),
      (convert_week_page_v1_to_v2 ids wpage).uploaded_at = wpage.uploaded_at ∧
      (convert_week_page_v1_to_v2 ids wpage).pages.length = wpage.pages.length ∧
      ∀ i : Nat, (convert_week_page_v1_to_v2 ids wpage).pages[i]? =
        wpage.pages[i]?.map (fun v1 =>
          { id := ids i, title := v1.title, text := v1.text, hidden := v1.hidden,
            created_at := v1.created_at, updated_at := v1.updated_at })) ∧
    (∀ (ids : Nat → Nat → String) (files : List (String × WeekPageV1)) (j : Nat),
      (fix_1_to_2 ids files)[j]? =
        files[j]?.map (fun e => (e.1, convert_week_page_v1_to_v2 (ids j) e.2))) ∧
    (∀ (ids1 ids2 : Nat → String) (wpage : WeekPageV1) (i : Nat),
      i < wpage.pages.length → ids1 i ≠ ids2 i →
      (convert_week_page_v1_to_v2 ids1 wpage).pages.map Page.id ≠
        (convert_week_page_v1_to_v2 ids2 wpage).pages.map Page.id) := by
  refine ⟨?_, ?_, ?_⟩
  · intro ids wpage
    refine ⟨rfl, ?_, convert_pages_getElem ids wpage⟩
    simp only [convert_week_page_v1_to_v2, List.length_map, List.enum_length]
  · intro ids files j
    simp only [fix_1_to_2, List.getElem?_map, List.getElem?_enum]
    cases files[j]? <;> rfl
  · intro ids1 ids2 wpage i hi hne heq
    apply hne
    have hmap := congrArg (fun l => l[i]?) heq
    simp only [List.getElem?_map, convert_pages_getElem,
      List.getElem?_eq_getElem hi, Option.map_some'] at hmap
    exact Option.some.inj hmap

/-- Example pre-migration page and shard for the C9 witness. -/
def c9V1Page : PageV1 :=
  ⟨"a day", "entry", false, ⟨19788, 0⟩, []⟩

def c9V1Shard : WeekPageV1 := ⟨[c9V1Page], none⟩

/-- Witness for C9: two migration runs over the same one-page shard whose
    uuid draws differ at index 0 yield different id lists. -/
theorem claim_c9_migration_fresh_ids_not_idempotent_witness :
    (convert_week_page_v1_to_v2 (fun _ => "uuid-run-1") c9V1Shard).pages.map Page.id ≠
      (convert_week_page_v1_to_v2 (fun _ => "uuid-run-2") c9V1Shard).pages.map Page.id :=
  claim_c9_migration_fresh_ids_not_idempotent.2.2 (fun _ => "uuid-run-1")
    (fun _ => "uuid-run-2") c9V1Shard 0 (by decide) (by decide)
